import Mathlib

/-!
Shallow embedding of the feature-extraction pipeline in `extract_mels.py`
(FastPitch data preprocessing).  Pure helper functions of the script are
translated directly; the per-utterance stateful fragments of `main` are
translated as explicit functions of their inputs.  Python runtime errors
(NameError / UnboundLocalError / IndexError) are modelled by `Option`
results, `none` meaning the interpreter raises.
-/

/-! ## ChunkSplitter: `dur_chunk_sizes(n, ary)`

`ret = np.ones((ary,)) * (n // ary); ret[:n % ary] = n // ary + 1`. -/

def dur_chunk_sizes (n ary : Nat) : List Nat :=
  (List.range ary).map (fun i => if i < n % ary then n / ary + 1 else n / ary)

/-! ## RunLengthEncoder: `run_length_encode(symbols)`

The Python loop walks `zip(symbols, symbols[1:])` keeping the current run
value and length, then appends the final run using the loop variable `u1`.
On inputs of length `<= 1` the loop body never runs and `u1` is unbound,
so the interpreter raises `NameError`: that case is `none` here. -/

def rleAux {α : Type} [DecidableEq α] : α → Nat → List α → List (α × Nat)
  | u0, dur, [] => [(u0, dur)]
  | u0, dur, u1 :: rest =>
      if u1 = u0 then rleAux u0 (dur + 1) rest
      else (u0, dur) :: rleAux u1 1 rest

def run_length_encode {α : Type} [DecidableEq α] (symbols : List α) :
    Option (List (α × Nat)) :=
  match symbols with
  | [] => none
  | [_] => none
  | u0 :: u1 :: rest => some (rleAux u0 1 (u1 :: rest))

/-! ## Unit-RLE duration reconciliation (`main`, extract_durs_from_unit_sequences)

`total_dur = sum(durs); if total_dur != mel_len: durs[-1] += mel_len - total_dur;
 if dur_diff != 1: log anomaly`.  Returns the adjusted durations and whether
the `Feature length mismatch` diagnostic was logged. -/

def adjust_durs (mel_len : Int) (durs : List Int) : List Int × Bool :=
  if durs.sum = mel_len then (durs, false)
  else
    (durs.dropLast ++ [durs.getLast?.getD 0 + (mel_len - durs.sum)],
     decide (mel_len - durs.sum ≠ 1))

/-! ## AlignmentFileParser: `parse_textgrid(tier, sampling_rate, hop_length)`

Interval labels are relabelled (`sil_phones` members become `"sil"` at the
first or last position of the tier and `"sp"` elsewhere); per-interval frame
durations are ceiling differences of the endpoint times. -/

def sil_phones : List String := ["sil", "sp", "spn", ""]

def relabelPhone (n i : Nat) (p : String) : String :=
  if p ∈ sil_phones then (if i = 0 ∨ i = n - 1 then "sil" else "sp") else p

def relabelAux (n : Nat) : Nat → List String → List String
  | _, [] => []
  | i, p :: rest => relabelPhone n i p :: relabelAux n (i + 1) rest

def parse_textgrid_phones (labels : List String) : List String :=
  relabelAux labels.length 0 labels

def tg_frame_dur (sampling_rate hop_length s e : ℚ) : Int :=
  ⌈e * sampling_rate / hop_length⌉ - ⌈s * sampling_rate / hop_length⌉

def parse_textgrid_durations (sampling_rate hop_length : ℚ)
    (intervals : List (ℚ × ℚ)) : List Int :=
  intervals.map (fun t => tg_frame_dur sampling_rate hop_length t.1 t.2)

/-! ## Attention-based durations (`main`, extract_durations)

`dur = torch.histc(torch.argmax(ali, dim=1), min=0, max=text_len-1, bins=text_len)`.
For integer inputs in `[0, text_len-1]` the histogram counts exact occurrences
of each symbol index; `torch.argmax` returns the first index of the maximum. -/

def argmaxAux : List ℚ → Nat → Nat → ℚ → Nat
  | [], _, bi, _ => bi
  | x :: xs, i, bi, bv =>
      if bv < x then argmaxAux xs (i + 1) i x else argmaxAux xs (i + 1) bi bv

def argmaxIdx : List ℚ → Nat
  | [] => 0
  | x :: xs => argmaxAux xs 1 0 x

def attn_durations (ali : List (List ℚ)) (text_len : Nat) : List Nat :=
  (List.range text_len).map (fun t => (ali.map argmaxIdx).count t)

/-- Synthetic attention row: one-hot at symbol index `s` over `text_len` columns. -/
def oneHotRow (text_len s : Nat) : List ℚ :=
  (List.range text_len).map (fun i => if i = s then 1 else 0)

def oneHotRowsAux (text_len : Nat) : Nat → List Nat → List (List ℚ)
  | _, [] => []
  | s, d :: rest =>
      List.replicate d (oneHotRow text_len s) ++ oneHotRowsAux text_len (s + 1) rest

/-- Synthetic attention matrix realizing a duration sequence with one-hot rows. -/
def oneHotMatrix (durs : List Nat) : List (List ℚ) := oneHotRowsAux durs.length 0 durs

/-- The per-frame argmax sequence of a one-hot attention matrix: symbol `s + j`
repeated `durs[j]` times, in order. -/
def expandAux : Nat → List Nat → List Nat
  | _, [] => []
  | s, d :: rest => List.replicate d s ++ expandAux (s + 1) rest

/-! ## Startup configuration checks (`main`, top)

Only `--extract-pitch-char` is guarded by the startup assertion
`assert (args.extract_durations or args.extract_durs_from_textgrids or
args.extract_durs_from_unit_sequences)`. -/

structure Config where
  extract_durations : Bool
  extract_durs_from_textgrids : Bool
  extract_durs_from_unit_sequences : Bool
  extract_pitch_mel : Bool
  extract_pitch_char : Bool
  extract_pitch_trichar : Bool

def durations_available (cfg : Config) : Bool :=
  cfg.extract_durations || cfg.extract_durs_from_textgrids ||
    cfg.extract_durs_from_unit_sequences

def pitch_requested (cfg : Config) : Bool :=
  cfg.extract_pitch_mel || cfg.extract_pitch_char || cfg.extract_pitch_trichar

def startup_asserts_ok (cfg : Config) : Bool :=
  !cfg.extract_pitch_char || durations_available cfg

/-! ## SilenceTrimmer (`main`, trim_silence block)

For one utterance: `sil_durs` are the durations at `sil`-labelled positions,
`trim_durs` their trimmed amounts.  The branch ladder chooses slice offsets
`(trim_start, trim_end)`; when no branch fires the Python names are unbound
(`UnboundLocalError` on the first utterance), and when `sil_durs` is empty
`sil_durs[0]` raises `IndexError`: both are `none`.  `numTexts` is
`len(texts)`, the number of utterances in the batch, which the third branch
compares against a silence duration. -/

def computeTrims (numTexts : Nat) (text : List String) (durs : List Int)
    (keep : Int) : Option (Option Int × Option Int) :=
  let sil_durs := ((text.zip durs).filter (fun p => p.1 = "sil")).map Prod.snd
  let trim_durs := sil_durs.map (fun d => if keep < d then d - keep else 0)
  let branch : Option (Option Int × Option Int) :=
    if trim_durs.length = 2 then
      some (some (trim_durs.getD 0 0), some (-(trim_durs.getD 1 0)))
    else
      match sil_durs with
      | [] => none
      | d0 :: _ =>
          if d0 = 0 then some (some (trim_durs.getD 0 0), none)
          else if d0 = (numTexts : Int) - 1 then
            some (none, some (-(trim_durs.getD 0 0)))
          else none
  match branch with
  | none => none
  | some (ts, te) => some (ts, if te = some 0 then none else te)

/-! ## PitchNormalizer: `normalize_pitch_vectors(pitch_vecs)`

Pools the nonzero entries of every stored vector, computes their mean and
population standard deviation, applies `(v - mean) / std` to each vector and
restores previously-zero entries to exactly 0.  Pitch values are embedded as
rationals; the standard deviation (numpy `std`, a square root) lives in `ℝ`. -/

def pooled_nonzeros (pitch_vecs : List (List ℚ)) : List ℚ :=
  (pitch_vecs.map (fun v => v.filter (fun x => x ≠ 0))).flatten

def np_mean (l : List ℚ) : ℚ := l.sum / l.length

def np_var (l : List ℚ) : ℚ := ((l.map (fun x => (x - np_mean l) ^ 2)).sum) / l.length

noncomputable def np_std (l : List ℚ) : ℝ := Real.sqrt ((np_var l : ℚ) : ℝ)

noncomputable def normalize_pitch_vectors (pitch_vecs : List (List ℚ)) :
    List (List ℝ) × ℚ × ℝ :=
  let mean := np_mean (pooled_nonzeros pitch_vecs)
  let std := np_std (pooled_nonzeros pitch_vecs)
  (pitch_vecs.map (fun v =>
     v.map (fun x : ℚ => if x = 0 then 0 else ((x : ℝ) - (mean : ℝ)) / std)),
   mean, std)

/-! Basic facts about `dur_chunk_sizes`. -/

theorem sum_map_range_ite (q m : Nat) :
    ∀ k : Nat, ((List.range k).map (fun i => if i < m then q + 1 else q)).sum
      = k * q + min m k := by
  intro k
  induction k with
  | zero => simp
  | succ k ih =>
      rw [List.range_succ, List.map_append, List.sum_append]
      by_cases h : k < m
      · have hm : min m (k + 1) = k + 1 := by omega
        have hm' : min m k = k := by omega
        simp only [List.map_cons, List.map_nil, List.sum_cons, List.sum_nil, if_pos h]
        rw [ih, hm, hm']
        ring
      · have hm : min m (k + 1) = min m k := by omega
        simp only [List.map_cons, List.map_nil, List.sum_cons, List.sum_nil, if_neg h]
        rw [ih, hm]
        ring

theorem dur_chunk_sizes_length (n ary : Nat) : (dur_chunk_sizes n ary).length = ary := by
  simp [dur_chunk_sizes]

theorem dur_chunk_sizes_sum (n ary : Nat) (h : 0 < ary) :
    (dur_chunk_sizes n ary).sum = n := by
  unfold dur_chunk_sizes
  rw [sum_map_range_ite]
  have hmod : n % ary < ary := Nat.mod_lt _ h
  have hmin : min (n % ary) ary = n % ary := by omega
  rw [hmin]
  exact Nat.div_add_mod n ary

theorem dur_chunk_sizes_getD (n ary i : Nat) (h : i < ary) :
    (dur_chunk_sizes n ary).getD i 0
      = if i < n % ary then n / ary + 1 else n / ary := by
  unfold dur_chunk_sizes
  rw [List.getD_eq_getElem?_getD, List.getElem?_map, List.getElem?_range h]
  rfl

theorem nat_ceil_div_eq (n k : Nat) (hk : 0 < k) (hr : n % k ≠ 0) :
    (n + k - 1) / k = n / k + 1 := by
  have h2 : k * (n / k) + n % k = n := Nat.div_add_mod n k
  have h0 : n % k < k := Nat.mod_lt _ hk
  have hmul : k * (n / k + 1) = k * (n / k) + k := by ring
  have h1 : n + k - 1 = k * (n / k + 1) + (n % k - 1) := by rw [hmul]; omega
  have h3 : (n % k - 1) / k = 0 := Nat.div_eq_of_lt (by omega)
  rw [h1, Nat.mul_add_div hk, h3]

/-- C6: `dur_chunk_sizes n k` returns `k` parts summing to `n`, the first
`n % k` parts being `⌈n/k⌉ = n/k + 1` and the rest `⌊n/k⌋ = n/k` (so the parts
differ by at most 1); `dur_chunk_sizes 3 2 = [2,1]`, `dur_chunk_sizes 5 3 =
[2,2,1]`, and all parts are 0 when `n = 0`. -/
theorem c6_dur_chunk_sizes_spec (n k : Nat) (hk : 0 < k) :
    (dur_chunk_sizes n k).length = k ∧
    (dur_chunk_sizes n k).sum = n ∧
    (∀ i, i < k → (dur_chunk_sizes n k).getD i 0
        = if i < n % k then n / k + 1 else n / k) ∧
    (n % k ≠ 0 → n / k + 1 = (n + k - 1) / k) ∧
    (∀ x ∈ dur_chunk_sizes n k, n / k ≤ x ∧ x ≤ n / k + 1) ∧
    dur_chunk_sizes 3 2 = [2, 1] ∧ dur_chunk_sizes 5 3 = [2, 2, 1] ∧
    (∀ x ∈ dur_chunk_sizes 0 k, x = 0) := by
  refine ⟨dur_chunk_sizes_length n k, dur_chunk_sizes_sum n k hk,
    fun i hi => dur_chunk_sizes_getD n k i hi,
    fun hr => (nat_ceil_div_eq n k hk hr).symm, ?_, by decide, by decide, ?_⟩
  · intro x hx
    simp only [dur_chunk_sizes, List.mem_map, List.mem_range] at hx
    obtain ⟨i, _, hx⟩ := hx
    split at hx <;> omega
  · intro x hx
    simp only [dur_chunk_sizes, List.mem_map, List.mem_range] at hx
    obtain ⟨i, _, hx⟩ := hx
    simp at hx
    omega

theorem c6_witness :
    (dur_chunk_sizes 3 2).length = 2 ∧ (dur_chunk_sizes 3 2).sum = 3 := by
  have h := c6_dur_chunk_sizes_spec 3 2 (by decide)
  exact ⟨h.1, h.2.1⟩

/-- C3: the claim says `run_length_encode` succeeds on every non-empty input,
including length 1.  On a length-1 input the Python loop never binds `u1`, so
the final flush `run_lengths.append([u1, dur])` raises `NameError`: the
embedding returns `none`.  For inputs of length ≥ 2 the final run is flushed,
as the spec example shows. -/
theorem c3_run_length_encode_single : run_length_encode ([7] : List Int) = none ∧
    run_length_encode ([1, 1, 2, 2, 2, 3] : List Int)
      = some [(1, 2), (2, 3), (3, 1)] := by
  constructor
  · rfl
  · rfl

/-- C2 counterexample: with natural RLE sum 2 and `mel_len = 1` the signed
difference is `-1`, whose magnitude is exactly 1, yet the code logs the
anomaly (it only silences a difference of `+1`). -/
theorem c2_minus_one_logs : adjust_durs 1 [2] = ([1], true) ∧
    ((1 : Int) - ([2] : List Int).sum).natAbs = 1 := by
  constructor
  · rfl
  · rfl

/-- C2 (amended): the unit-RLE reconciliation changes only the last run's
duration, by the signed difference `mel_len - sum(durs)`; afterwards the sum
equals `mel_len`; the anomaly diagnostic is emitted iff the signed difference
is neither 0 nor exactly +1 (a difference of -1 is logged). -/
theorem c2_adjust_durs_spec (mel_len : Int) (durs : List Int) (h : durs ≠ []) :
    (adjust_durs mel_len durs).1.sum = mel_len ∧
    (adjust_durs mel_len durs).1.length = durs.length ∧
    (adjust_durs mel_len durs).1.dropLast = durs.dropLast ∧
    ((adjust_durs mel_len durs).2 = true ↔
      mel_len - durs.sum ≠ 0 ∧ mel_len - durs.sum ≠ 1) := by
  unfold adjust_durs
  by_cases hs : durs.sum = mel_len
  · rw [if_pos hs]
    refine ⟨hs, rfl, rfl, ?_⟩
    simp
    omega
  · rw [if_neg hs]
    have hlast : durs.getLast?.getD 0 = durs.getLast h := by
      rw [List.getLast?_eq_getLast_of_ne_nil h]
      rfl
    have hsplit : durs.dropLast ++ [durs.getLast h] = durs :=
      List.dropLast_append_getLast h
    have hsum : durs.dropLast.sum + durs.getLast h = durs.sum := by
      conv_rhs => rw [← hsplit]
      rw [List.sum_append]
      simp
    have hlen : durs.dropLast.length + 1 = durs.length := by
      conv_rhs => rw [← hsplit]
      simp
    refine ⟨?_, ?_, ?_, ?_⟩
    · rw [List.sum_append, hlast]
      simp only [List.sum_cons, List.sum_nil]
      omega
    · simp only [List.length_append, List.length_cons, List.length_nil]
      omega
    · simp
    · simp only [decide_eq_true_eq]
      omega

theorem c2_witness :
    (adjust_durs 5 [1, 2]).1.sum = 5 ∧
    (adjust_durs 5 [1, 2]).1.length = ([1, 2] : List Int).length ∧
    (adjust_durs 5 [1, 2]).1.dropLast = ([1, 2] : List Int).dropLast ∧
    ((adjust_durs 5 [1, 2]).2 = true ↔
      (5 : Int) - ([1, 2] : List Int).sum ≠ 0 ∧
        (5 : Int) - ([1, 2] : List Int).sum ≠ 1) :=
  c2_adjust_durs_spec 5 [1, 2] (by decide)

/-- C4 counterexample: a configuration requesting only per-frame pitch
(`--extract-pitch-mel`) with no duration strategy passes the startup
assertion — only `--extract-pitch-char` is guarded. -/
theorem c4_pitch_mel_unguarded :
    pitch_requested ⟨false, false, false, true, false, false⟩ = true ∧
    durations_available ⟨false, false, false, true, false, false⟩ = false ∧
    startup_asserts_ok ⟨false, false, false, true, false, false⟩ = true :=
  ⟨rfl, rfl, rfl⟩

/-- C4 (amended): the startup assertion fails exactly when per-symbol pitch
extraction (`extract_pitch_char`) is requested without any of the three
duration strategies; the per-frame and per-sub-symbol pitch flags are not
guarded at startup. -/
theorem c4_startup_guard_iff (cfg : Config) :
    startup_asserts_ok cfg = false ↔
      cfg.extract_pitch_char = true ∧ durations_available cfg = false := by
  rcases cfg with ⟨a, b, c, d, e, f⟩
  simp only [startup_asserts_ok, durations_available]
  cases e <;> cases a <;> cases b <;> cases c <;> simp

/-- C5 counterexample: for unit sequence `[0,0,1]` with `mel_len = 1`, the
RLE durations `[2,1]` are adjusted to `[2,-1]`; the sum assertion passes
(`sum = 1 = mel_len`) and the persisted durations contain a negative entry. -/
theorem c5_negative_duration_persisted :
    run_length_encode ([0, 0, 1] : List Int) = some [(0, 2), (1, 1)] ∧
    adjust_durs 1 [2, 1] = ([2, -1], true) ∧
    (adjust_durs 1 [2, 1]).1.sum = 1 ∧
    ((-1 : Int) ∈ (adjust_durs 1 [2, 1]).1) := by
  refine ⟨rfl, rfl, rfl, ?_⟩
  decide

theorem tg_frame_dur_nonneg (sampling_rate hop_length s e : ℚ)
    (hsr : 0 < sampling_rate) (hhop : 0 < hop_length) (hse : s ≤ e) :
    0 ≤ tg_frame_dur sampling_rate hop_length s e := by
  unfold tg_frame_dur
  have hle : s * sampling_rate / hop_length ≤ e * sampling_rate / hop_length := by
    gcongr
  have := Int.ceil_le_ceil hle
  omega

/-- C1: at the claim's own input (single-utterance batch, symbols
`["sil","a","b"]`, leading silence duration 10, `keepFrames = 0`) none of the
trimming branches fires — the code compares the silence duration `sil_durs[0]`
against `0` and against `len(texts) - 1` instead of testing the silence's
position — so `trim_start`/`trim_end` are never bound and the interpreter
raises `UnboundLocalError` instead of trimming 10 leading frames. -/
theorem c1_single_sil_trim_crash :
    computeTrims 1 ["sil", "a", "b"] [10, 3, 4] 0 = none := by
  decide

theorem relabelAux_getD (n : Nat) :
    ∀ (labels : List String) (s i : Nat), i < labels.length →
      (relabelAux n s labels).getD i "" = relabelPhone n (s + i) (labels.getD i "") := by
  intro labels
  induction labels with
  | nil =>
      intro s i h
      simp at h
  | cons p rest ih =>
      intro s i h
      cases i with
      | zero => simp [relabelAux]
      | succ i =>
          simp only [relabelAux, List.getD_cons_succ]
          rw [ih (s + 1) i (by simpa using Nat.lt_of_succ_lt_succ h)]
          congr 1
          omega

/-- C8: `parse_textgrid` renames an interval whose label is in the silence set
`{"sil","sp","spn",""}` to `"sil"` when it is the first or last interval of the
tier and to `"sp"` otherwise, and passes non-silence labels through
unchanged. -/
theorem c8_parse_textgrid_relabel (labels : List String) (i : Nat)
    (h : i < labels.length) :
    (parse_textgrid_phones labels).getD i "" =
      if labels.getD i "" ∈ sil_phones then
        (if i = 0 ∨ i = labels.length - 1 then "sil" else "sp")
      else labels.getD i "" := by
  unfold parse_textgrid_phones
  rw [relabelAux_getD labels.length labels 0 i h]
  simp [relabelPhone]

theorem c8_witness :
    (parse_textgrid_phones ["", "a", "sp", ""]).getD 0 "" = "sil" ∧
    (parse_textgrid_phones ["", "a", "sp", ""]).getD 1 "" = "a" ∧
    (parse_textgrid_phones ["", "a", "sp", ""]).getD 2 "" = "sp" ∧
    (parse_textgrid_phones ["", "a", "sp", ""]).getD 3 "" = "sil" := by
  refine ⟨?_, ?_, ?_, ?_⟩ <;>
    exact (c8_parse_textgrid_relabel ["", "a", "sp", ""] _ (by decide)).trans (by decide)

theorem argmaxAux_lt (xs : List ℚ) :
    ∀ (i bi : Nat) (bv : ℚ) (n : Nat), bi < n → i + xs.length ≤ n →
      argmaxAux xs i bi bv < n := by
  induction xs with
  | nil =>
      intro i bi bv n hbi _
      simpa [argmaxAux] using hbi
  | cons x xs ih =>
      intro i bi bv n hbi hlen
      simp only [List.length_cons] at hlen
      simp only [argmaxAux]
      split
      · exact ih (i + 1) i x n (by omega) (by omega)
      · exact ih (i + 1) bi bv n hbi (by omega)

theorem argmaxIdx_lt (row : List ℚ) (n : Nat) (h0 : 0 < n)
    (hlen : row.length ≤ n) : argmaxIdx row < n := by
  cases row with
  | nil => simpa [argmaxIdx] using h0
  | cons x xs =>
      simp only [argmaxIdx]
      simp only [List.length_cons] at hlen
      exact argmaxAux_lt xs 1 0 x n h0 (by omega)

theorem list_sum_map_add {α : Type} (l : List α) (f g : α → Nat) :
    (l.map (fun x => f x + g x)).sum = (l.map f).sum + (l.map g).sum := by
  induction l with
  | nil => simp
  | cons a l ih =>
      simp only [List.map_cons, List.sum_cons, ih]
      omega

theorem sum_range_indicator (a T : Nat) (h : a < T) :
    ((List.range T).map (fun t => if a = t then 1 else 0)).sum = 1 := by
  induction T with
  | zero => omega
  | succ T ih =>
      rw [List.range_succ, List.map_append, List.sum_append]
      by_cases hT : a = T
      · subst hT
        have hz : ((List.range a).map (fun t => if a = t then 1 else 0)).sum = 0 := by
          apply List.sum_eq_zero
          intro x hx
          simp only [List.mem_map, List.mem_range] at hx
          obtain ⟨t, ht, hxe⟩ := hx
          rw [if_neg (by omega)] at hxe
          omega
        simp [hz]
      · rw [ih (by omega)]
        simp [hT]

theorem sum_range_count (T : Nat) :
    ∀ l : List Nat, (∀ a ∈ l, a < T) →
      ((List.range T).map (fun t => l.count t)).sum = l.length := by
  intro l
  induction l with
  | nil => simp
  | cons a l ih =>
      intro h
      have ha : a < T := h a (List.mem_cons_self a l)
      have hl : ∀ b ∈ l, b < T := fun b hb => h b (List.mem_cons_of_mem a hb)
      have hcc : ∀ t : Nat, (a :: l).count t = l.count t + if a = t then 1 else 0 := by
        intro t
        simp [List.count_cons]
      calc ((List.range T).map (fun t => (a :: l).count t)).sum
          = ((List.range T).map (fun t => l.count t + if a = t then 1 else 0)).sum := by
            simp only [hcc]
        _ = ((List.range T).map (fun t => l.count t)).sum
              + ((List.range T).map (fun t => if a = t then 1 else 0)).sum :=
            list_sum_map_add _ _ _
        _ = l.length + 1 := by rw [ih hl, sum_range_indicator a T ha]
        _ = (a :: l).length := by simp

theorem attn_durations_sum (ali : List (List ℚ)) (text_len : Nat)
    (h0 : 0 < text_len) (hrows : ∀ row ∈ ali, row.length = text_len) :
    (attn_durations ali text_len).sum = ali.length := by
  unfold attn_durations
  have hb : ∀ a ∈ ali.map argmaxIdx, a < text_len := by
    intro a ha
    simp only [List.mem_map] at ha
    obtain ⟨row, hrow, rfl⟩ := ha
    exact argmaxIdx_lt row text_len h0 (le_of_eq (hrows row hrow))
  rw [sum_range_count text_len (ali.map argmaxIdx) hb, List.length_map]

theorem oneHotRow_decomp (s k : Nat) :
    oneHotRow (s + 1 + k) s = List.replicate s 0 ++ 1 :: List.replicate k 0 := by
  unfold oneHotRow
  rw [List.range_add, List.map_append, List.range_succ, List.map_append,
    List.map_map]
  have h1 : (List.range s).map (fun i => if i = s then (1 : ℚ) else 0)
      = List.replicate s 0 := by
    rw [List.eq_replicate_iff]
    constructor
    · simp
    · intro b hb
      simp only [List.mem_map, List.mem_range] at hb
      obtain ⟨i, hi, he⟩ := hb
      rw [if_neg (by omega)] at he
      exact he.symm
  have h3 : (List.range k).map
        ((fun i => if i = s then (1 : ℚ) else 0) ∘ (fun j => s + 1 + j))
      = List.replicate k 0 := by
    rw [List.eq_replicate_iff]
    constructor
    · simp
    · intro b hb
      simp only [List.mem_map, List.mem_range, Function.comp] at hb
      obtain ⟨j, hj, he⟩ := hb
      rw [if_neg (by omega)] at he
      exact he.symm
  rw [h1, h3]
  simp

theorem argmaxAux_replicate_zero_keep (k : Nat) :
    ∀ (i bi : Nat), argmaxAux (List.replicate k 0) i bi 1 = bi := by
  induction k with
  | zero =>
      intro i bi
      rfl
  | succ k ih =>
      intro i bi
      simp only [List.replicate_succ, argmaxAux]
      rw [if_neg (by norm_num)]
      exact ih (i + 1) bi

theorem argmaxAux_replicate_zero_skip (k : Nat) :
    ∀ (l : List ℚ) (i bi : Nat),
      argmaxAux (List.replicate k 0 ++ l) i bi 0 = argmaxAux l (i + k) bi 0 := by
  induction k with
  | zero =>
      intro l i bi
      simp
  | succ k ih =>
      intro l i bi
      simp only [List.replicate_succ, List.cons_append, argmaxAux, List.append_eq]
      rw [if_neg (by norm_num)]
      rw [ih l (i + 1) bi]
      congr 1
      omega

theorem argmaxIdx_oneHotRow (text_len s : Nat) (h : s < text_len) :
    argmaxIdx (oneHotRow text_len s) = s := by
  obtain ⟨k, rfl⟩ : ∃ k, text_len = s + 1 + k := ⟨text_len - s - 1, by omega⟩
  rw [oneHotRow_decomp]
  cases s with
  | zero =>
      simp only [List.replicate_zero, List.nil_append, argmaxIdx]
      exact argmaxAux_replicate_zero_keep k 1 0
  | succ s =>
      simp only [List.replicate_succ, List.cons_append, argmaxIdx]
      rw [argmaxAux_replicate_zero_skip s (1 :: List.replicate k 0) 1 0]
      simp only [argmaxAux]
      rw [if_pos (by norm_num)]
      rw [argmaxAux_replicate_zero_keep k]
      omega

theorem map_argmaxIdx_oneHotRowsAux (text_len : Nat) :
    ∀ (durs : List Nat) (s : Nat), s + durs.length ≤ text_len →
      (oneHotRowsAux text_len s durs).map argmaxIdx = expandAux s durs := by
  intro durs
  induction durs with
  | nil =>
      intro s _
      rfl
  | cons d rest ih =>
      intro s h
      simp only [List.length_cons] at h
      simp only [oneHotRowsAux, expandAux, List.map_append, List.map_replicate]
      rw [argmaxIdx_oneHotRow text_len s (by omega)]
      rw [ih (s + 1) (by omega)]

theorem count_expandAux_lt :
    ∀ (durs : List Nat) (s t : Nat), t < s → (expandAux s durs).count t = 0 := by
  intro durs
  induction durs with
  | nil =>
      intro s t _
      rfl
  | cons d rest ih =>
      intro s t h
      simp only [expandAux, List.count_append]
      rw [ih (s + 1) t (by omega), List.count_replicate]
      have hne : ¬ (s = t) := by omega
      simp [hne]

theorem count_expandAux_getD :
    ∀ (durs : List Nat) (s j : Nat), j < durs.length →
      (expandAux s durs).count (s + j) = durs.getD j 0 := by
  intro durs
  induction durs with
  | nil =>
      intro s j h
      simp at h
  | cons d rest ih =>
      intro s j h
      cases j with
      | zero =>
          simp only [expandAux, List.count_append, Nat.add_zero, List.getD_cons_zero]
          rw [count_expandAux_lt rest (s + 1) s (by omega), List.count_replicate]
          simp
      | succ j =>
          simp only [List.length_cons] at h
          simp only [expandAux, List.count_append, List.getD_cons_succ]
          have h1 : s + (j + 1) = (s + 1) + j := by omega
          rw [h1, ih (s + 1) j (by omega), List.count_replicate]
          have hne : ¬ (s = s + 1 + j) := by omega
          simp [hne]

theorem attn_durations_oneHot (durs : List Nat) :
    attn_durations (oneHotMatrix durs) durs.length = durs := by
  unfold attn_durations oneHotMatrix
  rw [map_argmaxIdx_oneHotRowsAux durs.length durs 0 (by omega)]
  apply List.ext_getElem
  · simp
  · intro i h1 h2
    rw [List.getElem_map, List.getElem_range]
    have hc := count_expandAux_getD durs 0 i h2
    rw [Nat.zero_add] at hc
    rw [hc, List.getD_eq_getElem durs 0 h2]

/-- C7: for a valid (non-padded) attention matrix whose rows each have length
`text_len`, the attention strategy (per-frame argmax then `text_len`-bin
histogram) yields a length-`text_len` duration vector summing exactly to the
number of frames, with no reconciliation; and a one-hot attention matrix
realizing a duration sequence is recovered exactly. -/
theorem c7_attention_strategy (ali : List (List ℚ)) (text_len : Nat)
    (h0 : 0 < text_len) (hrows : ∀ row ∈ ali, row.length = text_len)
    (durs : List Nat) :
    (attn_durations ali text_len).sum = ali.length ∧
    (attn_durations ali text_len).length = text_len ∧
    attn_durations (oneHotMatrix durs) durs.length = durs :=
  ⟨attn_durations_sum ali text_len h0 hrows, by simp [attn_durations],
   attn_durations_oneHot durs⟩

theorem c7_witness :
    (attn_durations [[1, 0], [0, 1], [0, 1]] 2).sum = 3 ∧
    (attn_durations [[1, 0], [0, 1], [0, 1]] 2).length = 2 ∧
    attn_durations (oneHotMatrix [1, 2]) 2 = [1, 2] := by
  have h := c7_attention_strategy [[1, 0], [0, 1], [0, 1]] 2 (by norm_num)
      (by
        intro row hrow
        simp only [List.mem_cons, List.not_mem_nil, or_false] at hrow
        rcases hrow with rfl | rfl | rfl <;> rfl) [1, 2]
  exact ⟨h.1, h.2.1, h.2.2⟩

theorem adjust_durs_sum (mel_len : Int) (durs : List Int) (h : durs ≠ []) :
    (adjust_durs mel_len durs).1.sum = mel_len := by
  unfold adjust_durs
  by_cases hs : durs.sum = mel_len
  · rw [if_pos hs]
    exact hs
  · rw [if_neg hs]
    have hlast : durs.getLast?.getD 0 = durs.getLast h := by
      rw [List.getLast?_eq_getLast_of_ne_nil h]
      rfl
    have hsum : durs.dropLast.sum + durs.getLast h = durs.sum := by
      conv_rhs => rw [← List.dropLast_append_getLast h]
      rw [List.sum_append]
      simp
    rw [List.sum_append, hlast]
    simp only [List.sum_cons, List.sum_nil]
    omega

/-- C5 (amended): `sum(durations) == melLen` holds before persistence for all
three strategies (by construction for the unit-RLE reconciliation and the
attention histogram, and asserted for the alignment-file strategy), and the
alignment-file durations are all non-negative; but the unit-RLE adjustment can
make the final duration negative, so element non-negativity does not hold for
that strategy. -/
theorem c5_persist_invariants (mel_len : Int) (durs : List Int) (h : durs ≠ [])
    (sampling_rate hop_length : ℚ) (hsr : 0 < sampling_rate)
    (hhop : 0 < hop_length) (intervals : List (ℚ × ℚ))
    (hiv : ∀ p ∈ intervals, p.1 ≤ p.2)
    (ali : List (List ℚ)) (text_len : Nat) (h0 : 0 < text_len)
    (hrows : ∀ row ∈ ali, row.length = text_len) :
    (adjust_durs mel_len durs).1.sum = mel_len ∧
    (∀ d ∈ parse_textgrid_durations sampling_rate hop_length intervals, 0 ≤ d) ∧
    (attn_durations ali text_len).sum = ali.length := by
  refine ⟨adjust_durs_sum mel_len durs h, ?_,
    attn_durations_sum ali text_len h0 hrows⟩
  intro d hd
  simp only [parse_textgrid_durations, List.mem_map] at hd
  obtain ⟨p, hp, rfl⟩ := hd
  exact tg_frame_dur_nonneg _ _ p.1 p.2 hsr hhop (hiv p hp)

theorem c5_witness :
    (adjust_durs 3 [1, 2]).1.sum = 3 ∧
    (0 : Int) ≤ tg_frame_dur 2 1 0 1 ∧
    (attn_durations [[1, 0]] 2).sum = 1 := by
  have h := c5_persist_invariants 3 [1, 2] (by decide) 2 1 (by norm_num)
      (by norm_num) [(0, 1)]
      (by
        intro p hp
        simp only [List.mem_cons, List.not_mem_nil, or_false] at hp
        subst hp
        norm_num)
      [[1, 0]] 2 (by norm_num)
      (by
        intro row hrow
        simp only [List.mem_cons, List.not_mem_nil, or_false] at hrow
        subst hrow
        rfl)
  refine ⟨h.1, ?_, h.2.2⟩
  exact h.2.1 (tg_frame_dur 2 1 0 1)
    (by simp [parse_textgrid_durations])

theorem normalize_getD (pitch_vecs : List (List ℚ)) (i j : Nat)
    (hi : i < pitch_vecs.length) (hj : j < (pitch_vecs.getD i []).length) :
    ((normalize_pitch_vectors pitch_vecs).1.getD i []).getD j 1
      = if (pitch_vecs.getD i []).getD j 0 = 0 then (0 : ℝ) else
          ((((pitch_vecs.getD i []).getD j 0 : ℚ) : ℝ)
              - (np_mean (pooled_nonzeros pitch_vecs) : ℝ))
            / np_std (pooled_nonzeros pitch_vecs) := by
  have hvl : pitch_vecs.getD i [] = pitch_vecs[i] :=
    List.getD_eq_getElem pitch_vecs [] hi
  have hj' : j < (pitch_vecs[i]).length := by rwa [hvl] at hj
  have houter : (normalize_pitch_vectors pitch_vecs).1.getD i []
      = (pitch_vecs[i]).map (fun x : ℚ => if x = 0 then (0 : ℝ) else
          ((x : ℝ) - (np_mean (pooled_nonzeros pitch_vecs) : ℝ))
            / np_std (pooled_nonzeros pitch_vecs)) := by
    simp only [normalize_pitch_vectors]
    rw [List.getD_eq_getElem _ [] (by simpa using hi), List.getElem_map]
  have hentry : (pitch_vecs.getD i []).getD j 0 = (pitch_vecs[i])[j] := by
    rw [hvl, List.getD_eq_getElem _ 0 hj']
  rw [houter, List.getD_eq_getElem _ 1 (by simpa using hj'), List.getElem_map,
    hentry]

/-- C9 counterexample: in the corpus `{a: [1,3,2,2,2,2,2,2]}` the pooled
nonzero mean is 2, so the previously-nonzero entry with value 2 is mapped to
`(2-2)/std = 0`: the set of zero-valued indices of the stored vector grows,
refuting "the set of zero-valued indices of each vector is unchanged". -/
theorem c9_zero_set_not_preserved :
    (([[1, 3, 2, 2, 2, 2, 2, 2]] : List (List ℚ)).getD 0 []).getD 2 0 ≠ 0 ∧
    ((normalize_pitch_vectors [[1, 3, 2, 2, 2, 2, 2, 2]]).1.getD 0 []).getD 2 1
      = 0 := by
  constructor
  · norm_num
  · rw [normalize_getD [[1, 3, 2, 2, 2, 2, 2, 2]] 0 2 (by norm_num) (by simp)]
    have hpool : pooled_nonzeros [[1, 3, 2, 2, 2, 2, 2, 2]]
        = [1, 3, 2, 2, 2, 2, 2, 2] := by
      simp [pooled_nonzeros]
    have hmean : np_mean (pooled_nonzeros [[1, 3, 2, 2, 2, 2, 2, 2]]) = 2 := by
      rw [hpool]
      norm_num [np_mean, List.sum_cons, List.sum_nil]
    have hval : (([[1, 3, 2, 2, 2, 2, 2, 2]] : List (List ℚ)).getD 0 []).getD 2 0
        = 2 := by
      norm_num
    rw [hval, hmean, if_neg (by norm_num)]
    simp

/-- C9 (amended): the normalization pass returns `(mean, std)` of the pooled
nonzero values; previously-zero entries are exactly 0.0 afterwards; every
previously-nonzero entry `v` becomes `(v - mean)/std` — which is itself 0 when
`v = mean`, so the zero-index set of each vector can only grow (it is unchanged
only when no nonzero entry equals the pooled mean). -/
theorem c9_normalize_pointwise (pitch_vecs : List (List ℚ)) (i j : Nat)
    (hi : i < pitch_vecs.length) (hj : j < (pitch_vecs.getD i []).length) :
    (normalize_pitch_vectors pitch_vecs).2
      = (np_mean (pooled_nonzeros pitch_vecs), np_std (pooled_nonzeros pitch_vecs)) ∧
    ((pitch_vecs.getD i []).getD j 0 = 0 →
      ((normalize_pitch_vectors pitch_vecs).1.getD i []).getD j 1 = 0) ∧
    ((pitch_vecs.getD i []).getD j 0 ≠ 0 →
      ((normalize_pitch_vectors pitch_vecs).1.getD i []).getD j 1
        = (((pitch_vecs.getD i []).getD j 0 : ℝ)
            - (np_mean (pooled_nonzeros pitch_vecs) : ℝ))
            / np_std (pooled_nonzeros pitch_vecs)) := by
  refine ⟨rfl, ?_, ?_⟩
  · intro hz
    rw [normalize_getD pitch_vecs i j hi hj, if_pos hz]
  · intro hnz
    rw [normalize_getD pitch_vecs i j hi hj, if_neg hnz]

theorem c9_witness :
    ((normalize_pitch_vectors [[0, 5]]).1.getD 0 []).getD 0 1 = 0 ∧
    ((normalize_pitch_vectors [[0, 5]]).1.getD 0 []).getD 1 1
      = (((5 : ℚ) : ℝ) - (np_mean (pooled_nonzeros [[0, 5]]) : ℝ))
          / np_std (pooled_nonzeros [[0, 5]]) := by
  constructor
  · exact (c9_normalize_pointwise [[0, 5]] 0 0 (by norm_num) (by simp)).2.1
      (by simp)
  · have h := (c9_normalize_pointwise [[0, 5]] 0 1 (by norm_num) (by simp)).2.2
      (by simp)
    simpa using h

theorem list_sum_sq_pos (l : List ℚ) (μ : ℚ) (x : ℚ) (hx : x ∈ l) (hne : x ≠ μ) :
    0 < (l.map (fun y => (y - μ) ^ 2)).sum := by
  have hmem : (x - μ) ^ 2 ∈ l.map (fun y => (y - μ) ^ 2) :=
    List.mem_map_of_mem _ hx
  have hnn : ∀ z ∈ l.map (fun y => (y - μ) ^ 2), (0 : ℚ) ≤ z := by
    intro z hz
    simp only [List.mem_map] at hz
    obtain ⟨y, _, rfl⟩ := hz
    positivity
  have hle := List.single_le_sum hnn _ hmem
  have hsub : x - μ ≠ 0 := sub_ne_zero.mpr hne
  have hpos : (0 : ℚ) < (x - μ) ^ 2 := by positivity
  linarith

theorem np_var_pos (l : List ℚ) (a b : ℚ) (ha : a ∈ l) (hb : b ∈ l)
    (hab : a ≠ b) : 0 < np_var l := by
  have hlen : 0 < l.length := List.length_pos.mpr (by rintro rfl; simp at ha)
  have hor : a ≠ np_mean l ∨ b ≠ np_mean l := by
    by_contra hcon
    push_neg at hcon
    exact hab (hcon.1.trans hcon.2.symm)
  unfold np_var
  have hpos : 0 < (l.map (fun y => (y - np_mean l) ^ 2)).sum := by
    rcases hor with h | h
    · exact list_sum_sq_pos l (np_mean l) a ha h
    · exact list_sum_sq_pos l (np_mean l) b hb h
  apply div_pos hpos
  exact_mod_cast hlen

theorem np_var_const (l : List ℚ) (c : ℚ) (hl : l ≠ []) (hc : ∀ x ∈ l, x = c) :
    np_var l = 0 := by
  have hlen : (l.length : ℚ) ≠ 0 := by
    have := List.length_pos.mpr hl
    positivity
  have hrep : l = List.replicate l.length c := by
    rw [List.eq_replicate_iff]
    exact ⟨rfl, hc⟩
  have hsum : l.sum = (l.length : ℚ) * c := by
    conv_lhs => rw [hrep]
    rw [List.sum_replicate, nsmul_eq_mul]
  have hmean : np_mean l = c := by
    unfold np_mean
    rw [hsum]
    field_simp
  unfold np_var
  have hz : (l.map (fun x => (x - np_mean l) ^ 2)).sum = 0 := by
    apply List.sum_eq_zero
    intro z hz
    simp only [List.mem_map] at hz
    obtain ⟨y, hy, rfl⟩ := hz
    rw [hmean, hc y hy]
    ring
  rw [hz, zero_div]

theorem np_std_const (l : List ℚ) (c : ℚ) (hl : l ≠ []) (hc : ∀ x ∈ l, x = c) :
    np_std l = 0 := by
  unfold np_std
  rw [np_var_const l c hl hc]
  simp

theorem np_std_ne_zero (l : List ℚ) (a b : ℚ) (ha : a ∈ l) (hb : b ∈ l)
    (hab : a ≠ b) : np_std l ≠ 0 := by
  unfold np_std
  have h := np_var_pos l a b ha hb hab
  have h2 : (0 : ℝ) < ((np_var l : ℚ) : ℝ) := by exact_mod_cast h
  exact ne_of_gt (Real.sqrt_pos.mpr h2)

/-- C10: `normalize_pitch_vectors` has no guard for degenerate corpora: on an
all-unvoiced corpus the pooled nonzero list is empty (so the mean is a mean
over an empty set), on a corpus whose pooled nonzero values are all equal the
population standard deviation is 0 (so the per-entry division divides by
zero), and the standard deviation is nonzero — the transform well-defined —
exactly when the pooled nonzero values contain two distinct values. -/
theorem c10_normalize_degenerate :
    (∀ pitch_vecs : List (List ℚ), (∀ v ∈ pitch_vecs, ∀ x ∈ v, x = 0) →
      pooled_nonzeros pitch_vecs = []) ∧
    (∀ pitch_vecs : List (List ℚ), ∀ c : ℚ, pooled_nonzeros pitch_vecs ≠ [] →
      (∀ x ∈ pooled_nonzeros pitch_vecs, x = c) →
      np_std (pooled_nonzeros pitch_vecs) = 0) ∧
    (∀ pitch_vecs : List (List ℚ), ∀ a b : ℚ,
      a ∈ pooled_nonzeros pitch_vecs → b ∈ pooled_nonzeros pitch_vecs →
      a ≠ b → np_std (pooled_nonzeros pitch_vecs) ≠ 0) := by
  refine ⟨?_, ?_, ?_⟩
  · intro vecs hz
    unfold pooled_nonzeros
    rw [List.flatten_eq_nil_iff]
    intro x hx
    simp only [List.mem_map] at hx
    obtain ⟨v, hv, rfl⟩ := hx
    rw [List.filter_eq_nil_iff]
    intro a ha
    simp [hz v hv a ha]
  · intro vecs c hne hc
    exact np_std_const _ c hne hc
  · intro vecs a b ha hb hab
    exact np_std_ne_zero _ a b ha hb hab

theorem c10_witness :
    pooled_nonzeros [[0, 0], [0]] = [] ∧
    np_std (pooled_nonzeros [[5, 5]]) = 0 ∧
    np_std (pooled_nonzeros [[1, 3]]) ≠ 0 := by
  refine ⟨c10_normalize_degenerate.1 [[0, 0], [0]] ?_, ?_, ?_⟩
  · intro v hv x hx
    simp only [List.mem_cons, List.not_mem_nil, or_false] at hv
    rcases hv with rfl | rfl <;> simpa using hx
  · refine c10_normalize_degenerate.2.1 [[5, 5]] 5 ?_ ?_
    · simp [pooled_nonzeros]
    · intro x hx
      simpa [pooled_nonzeros] using hx
  · refine c10_normalize_degenerate.2.2 [[1, 3]] 1 3 ?_ ?_ (by norm_num)
    · simp [pooled_nonzeros]
    · simp [pooled_nonzeros]
